import Mathlib

/-!
Verification of the manaflow FPS-overlay core (`src/main.js`):
the `RingFIFO` circular buffer, the FPS sampler (`FPSWidget.calcFPS`),
the enable/disable toggle (`FPSWidget.toggle`), the animation tick
(`FPSWidget.loop`'s scheduled callback) and the renderer (`FPSWidget.draw`).

JavaScript numbers are modelled as exact rationals (timestamps, canvas
coordinates) and integers (`Math.round` results, counters); JS `%` on
integers is truncated remainder, modelled with `Int.tmod`.  DOM and canvas
objects are external collaborators: the canvas is modelled as a recording
surface (a list of drawing commands), CSS-class changes are not modelled.
-/

set_option allowUnsafeReducibility true
attribute [local semireducible] Rat.mul Rat.inv Rat.add Rat.sub Rat.ofScientific

/-- The ring buffer of `src/main.js` (`class RingFIFO`).  The JS fields
`size`, `__buffer`, `__head`, `__count` are carried verbatim; the buffer
array is a list of integers (only integer FPS values are ever stored,
and the constructor fills it with `0`). -/
structure RingFIFO where
  size : Nat
  buffer : List Int
  head : Nat
  count : Nat
  deriving Repr, DecidableEq

/-- The successful path of the JS constructor: `new Array(size)` followed by
`fill(0)`, `__head = 0`, `__count = 0`. -/
def RingFIFO.init (size : Nat) : RingFIFO :=
  { size := size, buffer := List.replicate size 0, head := 0, count := 0 }

/-- Errors the JS runtime can signal during construction.  `new Array(n)`
throws a `RangeError` when `n` is a negative number; the source defines no
`ConfigurationError` of its own. -/
inductive JSError where
  | rangeError
  deriving Repr, DecidableEq

/-- `RingFIFO`'s constructor on an arbitrary integer argument, as the JS
engine executes it: `new Array(size)` rejects a negative length with a
`RangeError`; otherwise every field is initialised and no validation of any
kind is performed. -/
def RingFIFO.construct (size : Int) : Except JSError RingFIFO :=
  if size < 0 then .error .rangeError
  else .ok (RingFIFO.init size.toNat)

/-- `RingFIFO.push`: write at `__head`, advance `__head` modulo `size`,
saturate `__count` at `size`. -/
def RingFIFO.push (r : RingFIFO) (val : Int) : RingFIFO :=
  { r with
    buffer := r.buffer.set r.head val
    head := (r.head + 1) % r.size
    count := if r.count < r.size then r.count + 1 else r.count }

/-- `RingFIFO.get`: `0` for an out-of-range index, otherwise the element at
`(start + index) % size` where `start = (head - count + size) % size`.
JS `%` is truncated remainder (`Int.tmod`); the array read is modelled with
`getD _ 0`, which agrees with JS on every state reachable by `push`es from
the constructor (there the computed position is always in range). -/
def RingFIFO.get (r : RingFIFO) (index : Int) : Int :=
  if index < 0 ∨ (r.count : Int) ≤ index then 0
  else
    let start : Int := Int.tmod ((r.head : Int) - r.count + r.size) r.size
    r.buffer.getD (Int.tmod (start + index) r.size).toNat 0

/-- The `length` accessor: the current `__count`. -/
def RingFIFO.length (r : RingFIFO) : Nat := r.count

/-- Pushing a whole list of values, oldest first. -/
def RingFIFO.pushAll (r : RingFIFO) (vs : List Int) : RingFIFO :=
  vs.foldl RingFIFO.push r

/-- The logical contents of the buffer, oldest to newest, via `get`. -/
def RingFIFO.toList (r : RingFIFO) : List Int :=
  (List.range r.count).map (fun i : Nat => r.get (i : Int))

/-- Structural well-formedness maintained by the constructor and `push`:
positive capacity, `head` in range, `count` saturated at `size`, backing
array of length `size`. -/
def RingFIFO.WF (r : RingFIFO) : Prop :=
  0 < r.size ∧ r.head < r.size ∧ r.count ≤ r.size ∧ r.buffer.length = r.size

theorem RingFIFO.WF.init {n : Nat} (hn : 0 < n) : (RingFIFO.init n).WF := by
  refine ⟨hn, hn, Nat.zero_le _, ?_⟩
  simp [RingFIFO.init]

theorem RingFIFO.WF.push {r : RingFIFO} (h : r.WF) (v : Int) : (r.push v).WF := by
  obtain ⟨hs, hh, hc, hb⟩ := h
  refine ⟨hs, ?_, ?_, ?_⟩
  · exact Nat.mod_lt _ hs
  · by_cases hlt : r.count < r.size <;> simp [RingFIFO.push, hlt] <;> omega
  · simp [RingFIFO.push, hb]

/-- Truncated remainder of nonnegative integer literals is the natural
remainder. -/
theorem tmod_natCast (a b : Nat) : Int.tmod (a : Int) (b : Int) = ((a % b : Nat) : Int) := rfl

/-- On a well-formed state, `get` at an in-range natural index reads the
backing array at `(head + size - count + i) % size`. -/
theorem RingFIFO.get_eq_natIdx {r : RingFIFO} (h : r.WF) {i : Nat} (hi : i < r.count) :
    r.get (i : Int) = r.buffer.getD ((r.head + r.size - r.count + i) % r.size) 0 := by
  obtain ⟨hs, hh, hc, hb⟩ := h
  have hneg : ¬ ((i : Int) < 0 ∨ (r.count : Int) ≤ (i : Int)) := by
    push_neg
    exact ⟨Int.natCast_nonneg i, by exact_mod_cast hi⟩
  rw [RingFIFO.get, if_neg hneg]
  show r.buffer.getD
      (Int.tmod (Int.tmod ((r.head : Int) - r.count + r.size) r.size + (i : Int)) r.size).toNat 0
    = r.buffer.getD ((r.head + r.size - r.count + i) % r.size) 0
  have hcast : (r.head : Int) - r.count + r.size = ((r.head + r.size - r.count : Nat) : Int) := by
    push_cast [Nat.cast_sub (by omega : r.count ≤ r.head + r.size)]
    ring
  have hidx : (Int.tmod ((((r.head + r.size - r.count) % r.size : Nat) : Int) + (i : Int))
        (r.size : Int)).toNat
      = (r.head + r.size - r.count + i) % r.size := by
    rw [show (((r.head + r.size - r.count) % r.size : Nat) : Int) + (i : Int)
          = (((r.head + r.size - r.count) % r.size + i : Nat) : Int) by push_cast; ring]
    rw [tmod_natCast, Nat.mod_add_mod]
    exact Int.toNat_natCast _
  rw [hcast, tmod_natCast, hidx]


theorem RingFIFO.size_push (r : RingFIFO) (v : Int) : (r.push v).size = r.size := rfl

theorem RingFIFO.head_push (r : RingFIFO) (v : Int) :
    (r.push v).head = (r.head + 1) % r.size := rfl

theorem RingFIFO.buffer_push (r : RingFIFO) (v : Int) :
    (r.push v).buffer = r.buffer.set r.head v := rfl

theorem RingFIFO.count_push (r : RingFIFO) (v : Int) :
    (r.push v).count = if r.count < r.size then r.count + 1 else r.count := rfl

theorem RingFIFO.toList_length (r : RingFIFO) : r.toList.length = r.count := by
  rw [RingFIFO.toList, List.length_map, List.length_range]

/-- Adding a displacement `d` with `1 ≤ d < n` to `h < n` never lands back on
`h` modulo `n`. -/
theorem add_mod_ne_self {n h d : Nat} (hh : h < n) (hd1 : 1 ≤ d) (hd2 : d < n) :
    (h + d) % n ≠ h := by
  rcases Nat.lt_or_ge (h + d) n with hlt | hge
  · rw [Nat.mod_eq_of_lt hlt]; omega
  · have : (h + d) % n = h + d - n := by
      rw [Nat.mod_eq_sub_mod hge, Nat.mod_eq_of_lt (by omega)]
    omega

/-- After a non-saturating push the logical read base is unchanged: the
array position of logical index `i` is the same before and after. -/
theorem RingFIFO.push_natIdx_lt {r : RingFIFO} (h : r.WF) (hc : r.count < r.size) (i : Nat) :
    ((r.head + 1) % r.size + r.size - (r.count + 1) + i) % r.size
      = (r.head + r.size - r.count + i) % r.size := by
  obtain ⟨hs, hh, _, _⟩ := h
  rcases Nat.lt_or_ge (r.head + 1) r.size with hlt | hge
  · rw [Nat.mod_eq_of_lt hlt]
    congr 1
    omega
  · have hhead : r.head + 1 = r.size := by omega
    rw [hhead, Nat.mod_self]
    rw [show r.head + r.size - r.count + i = (0 + r.size - (r.count + 1) + i) + r.size by omega]
    rw [Nat.add_mod_right]

/-- On a saturated buffer the array position of logical index `i` after a
push is `(head + 1 + i) % size`. -/
theorem RingFIFO.push_natIdx_full {r : RingFIFO} (h : r.WF) (i : Nat) :
    ((r.head + 1) % r.size + i) % r.size = (r.head + 1 + i) % r.size := by
  obtain ⟨hs, hh, _, _⟩ := h
  rcases Nat.lt_or_ge (r.head + 1) r.size with hlt | hge
  · rw [Nat.mod_eq_of_lt hlt]
  · have hhead : r.head + 1 = r.size := by omega
    rw [hhead, Nat.mod_self, Nat.zero_add]
    rw [show r.size + i = i + r.size by omega, Nat.add_mod_right]

theorem RingFIFO.get_push_new {r : RingFIFO} (h : r.WF) (hc : r.count < r.size) (v : Int) :
    (r.push v).get (r.count : Int) = v := by
  have hWF := RingFIFO.WF.push h v
  have hcount : (r.push v).count = r.count + 1 := by rw [RingFIFO.count_push, if_pos hc]
  have hi : r.count < (r.push v).count := by omega
  rw [RingFIFO.get_eq_natIdx hWF hi]
  rw [RingFIFO.buffer_push, RingFIFO.head_push, RingFIFO.size_push, hcount]
  rw [RingFIFO.push_natIdx_lt h hc]
  obtain ⟨hs, hh, hcle, hb⟩ := h
  rw [show r.head + r.size - r.count + r.count = r.head + r.size by omega]
  rw [Nat.add_mod_right, Nat.mod_eq_of_lt hh]
  simp [List.getD_eq_getElem?_getD, List.getElem?_set_self, hb ▸ hh]

theorem RingFIFO.get_push_old {r : RingFIFO} (h : r.WF) (hc : r.count < r.size) (v : Int)
    {i : Nat} (hi : i < r.count) :
    (r.push v).get (i : Int) = r.get (i : Int) := by
  have hWF := RingFIFO.WF.push h v
  have hcount : (r.push v).count = r.count + 1 := by rw [RingFIFO.count_push, if_pos hc]
  have hi' : i < (r.push v).count := by omega
  rw [RingFIFO.get_eq_natIdx hWF hi', RingFIFO.get_eq_natIdx h hi]
  rw [RingFIFO.buffer_push, RingFIFO.head_push, RingFIFO.size_push, hcount]
  rw [RingFIFO.push_natIdx_lt h hc]
  obtain ⟨hs, hh, hcle, hb⟩ := h
  have hne : (r.head + r.size - r.count + i) % r.size ≠ r.head := by
    rw [show r.head + r.size - r.count + i = r.head + (r.size - r.count + i) by omega]
    exact add_mod_ne_self hh (by omega) (by omega)
  simp [List.getD_eq_getElem?_getD, List.getElem?_set_ne (Ne.symm hne)]

theorem RingFIFO.get_push_full_new {r : RingFIFO} (h : r.WF) (hc : ¬ r.count < r.size)
    (v : Int) :
    (r.push v).get ((r.size - 1 : Nat) : Int) = v := by
  have hWF := RingFIFO.WF.push h v
  have hcount : (r.push v).count = r.count := by rw [RingFIFO.count_push, if_neg hc]
  have hceq : r.count = r.size := by
    obtain ⟨hs, hh, hcle, hb⟩ := h
    omega
  have hs : 0 < r.size := h.1
  have hi : r.size - 1 < (r.push v).count := by omega
  rw [RingFIFO.get_eq_natIdx hWF hi]
  rw [RingFIFO.buffer_push, RingFIFO.head_push, RingFIFO.size_push, hcount]
  rw [show (r.head + 1) % r.size + r.size - r.count + (r.size - 1)
        = (r.head + 1) % r.size + (r.size - 1) by
      have := Nat.mod_lt (r.head + 1) hs
      omega]
  rw [RingFIFO.push_natIdx_full h]
  have hh : r.head < r.size := h.2.1
  have hb : r.buffer.length = r.size := h.2.2.2
  rw [show r.head + 1 + (r.size - 1) = r.head + r.size by omega]
  rw [Nat.add_mod_right, Nat.mod_eq_of_lt hh]
  simp [List.getD_eq_getElem?_getD, List.getElem?_set_self, hb ▸ hh]

theorem RingFIFO.get_push_full_old {r : RingFIFO} (h : r.WF) (hc : ¬ r.count < r.size)
    (v : Int) {i : Nat} (hi : i < r.size - 1) :
    (r.push v).get (i : Int) = r.get ((i + 1 : Nat) : Int) := by
  have hWF := RingFIFO.WF.push h v
  have hcount : (r.push v).count = r.count := by rw [RingFIFO.count_push, if_neg hc]
  have hceq : r.count = r.size := by
    obtain ⟨hs, hh, hcle, hb⟩ := h
    omega
  have hi' : i < (r.push v).count := by omega
  have hi'' : i + 1 < r.count := by omega
  rw [RingFIFO.get_eq_natIdx hWF hi', RingFIFO.get_eq_natIdx h hi'']
  rw [RingFIFO.buffer_push, RingFIFO.head_push, RingFIFO.size_push, hcount]
  rw [show (r.head + 1) % r.size + r.size - r.count + i = (r.head + 1) % r.size + i by
      have := Nat.mod_lt (r.head + 1) h.1
      omega]
  rw [RingFIFO.push_natIdx_full h]
  rw [show r.head + r.size - r.count + (i + 1) = r.head + 1 + i by
      have hh : r.head < r.size := h.2.1
      omega]
  have hne : (r.head + 1 + i) % r.size ≠ r.head := by
    rw [show r.head + 1 + i = r.head + (1 + i) by omega]
    exact add_mod_ne_self h.2.1 (by omega) (by omega)
  simp [List.getD_eq_getElem?_getD, List.getElem?_set_ne (Ne.symm hne)]

theorem RingFIFO.toList_push_lt {r : RingFIFO} (h : r.WF) (hc : r.count < r.size) (v : Int) :
    (r.push v).toList = r.toList ++ [v] := by
  have hcount : (r.push v).count = r.count + 1 := by rw [RingFIFO.count_push, if_pos hc]
  rw [RingFIFO.toList, RingFIFO.toList, hcount, List.range_succ, List.map_append]
  have h1 : (List.range r.count).map (fun i : Nat => (r.push v).get (i : Int))
      = (List.range r.count).map (fun i : Nat => r.get (i : Int)) :=
    List.map_congr_left (fun x hx => RingFIFO.get_push_old h hc v (List.mem_range.mp hx))
  have h2 : ([r.count].map (fun i : Nat => (r.push v).get (i : Int))) = [v] := by
    rw [List.map_singleton, RingFIFO.get_push_new h hc v]
  rw [h1, h2]

theorem RingFIFO.toList_push_full {r : RingFIFO} (h : r.WF) (hc : ¬ r.count < r.size)
    (v : Int) :
    (r.push v).toList = r.toList.drop 1 ++ [v] := by
  have hcount : (r.push v).count = r.count := by rw [RingFIFO.count_push, if_neg hc]
  have hceq : r.count = r.size := by
    have := h.2.2.1
    omega
  obtain ⟨m, hm⟩ : ∃ m, r.size = m + 1 := ⟨r.size - 1, by have := h.1; omega⟩
  have hR : r.toList.drop 1 = (List.range m).map (fun i : Nat => r.get ((i + 1 : Nat) : Int)) := by
    rw [RingFIFO.toList, hceq, hm, List.range_succ_eq_map, List.map_cons, List.drop_one,
      List.tail_cons, List.map_map]
    rfl
  have h1 : (List.range m).map (fun i : Nat => (r.push v).get (i : Int))
      = (List.range m).map (fun i : Nat => r.get ((i + 1 : Nat) : Int)) :=
    List.map_congr_left (fun x hx => by
      have hx' : x < r.size - 1 := by
        have := List.mem_range.mp hx
        omega
      exact RingFIFO.get_push_full_old h hc v hx')
  have h2 : ([m].map (fun i : Nat => (r.push v).get (i : Int))) = [v] := by
    rw [List.map_singleton]
    have := RingFIFO.get_push_full_new h hc v
    rw [show r.size - 1 = m by omega] at this
    rw [this]
  rw [RingFIFO.toList, hcount, hceq, hm, List.range_succ, List.map_append, h1, h2, hR]

/-- The last `n` elements of a list (all of it when it is shorter). -/
def lastN (n : Nat) (xs : List Int) : List Int := xs.drop (xs.length - n)

theorem lastN_of_le (n : Nat) (xs : List Int) (h : xs.length ≤ n) : lastN n xs = xs := by
  rw [lastN, Nat.sub_eq_zero_of_le h, List.drop_zero]

theorem lastN_cons (n : Nat) (x : Int) (xs : List Int) (hx : n ≤ xs.length) :
    lastN n (x :: xs) = lastN n xs := by
  rw [lastN, lastN, List.length_cons]
  rw [show xs.length + 1 - n = (xs.length - n) + 1 by omega]
  rw [List.drop_succ_cons]

theorem lastN_length (n : Nat) (xs : List Int) :
    (lastN n xs).length = xs.length - (xs.length - n) := by
  rw [lastN, List.length_drop]

/-- The logical contents after a batch of pushes: the last `size` elements of
old contents followed by the pushed values. -/
theorem RingFIFO.toList_pushAll {r : RingFIFO} (h : r.WF) (vs : List Int) :
    (r.pushAll vs).toList = lastN r.size (r.toList ++ vs) := by
  induction vs generalizing r with
  | nil =>
    rw [RingFIFO.pushAll, List.foldl_nil, List.append_nil]
    exact (lastN_of_le _ _ (by rw [r.toList_length]; exact h.2.2.1)).symm
  | cons v vs ih =>
    rw [RingFIFO.pushAll, List.foldl_cons]
    have hWF := RingFIFO.WF.push h v
    have hrec := ih hWF
    rw [RingFIFO.pushAll] at hrec
    rw [hrec, RingFIFO.size_push]
    by_cases hc : r.count < r.size
    · rw [RingFIFO.toList_push_lt h hc, List.append_assoc]
      rfl
    · rw [RingFIFO.toList_push_full h hc]
      have hceq : r.count = r.size := by
        have := h.2.2.1
        omega
      obtain ⟨x, t, hxt⟩ : ∃ x t, r.toList = x :: t := by
        have hlen : r.toList.length = r.size := by rw [r.toList_length, hceq]
        cases hl : r.toList with
        | nil =>
          exfalso
          rw [hl] at hlen
          have := h.1
          simp at hlen
          omega
        | cons x t => exact ⟨x, t, rfl⟩
      have hlen : t.length = r.size - 1 := by
        have := r.toList_length
        rw [hxt] at this
        simp at this
        omega
      rw [hxt, List.drop_one, List.tail_cons, List.append_assoc]
      show lastN r.size (t ++ (v :: vs)) = lastN r.size (x :: (t ++ v :: vs))
      rw [lastN_cons r.size x (t ++ v :: vs) (by
        rw [List.length_append, List.length_cons]
        have := h.1
        omega)]

theorem RingFIFO.WF.pushAll {r : RingFIFO} (h : r.WF) (vs : List Int) :
    (r.pushAll vs).WF := by
  induction vs generalizing r with
  | nil => exact h
  | cons v vs ih =>
    rw [RingFIFO.pushAll, List.foldl_cons]
    exact ih (RingFIFO.WF.push h v)

theorem RingFIFO.toList_init (n : Nat) : (RingFIFO.init n).toList = [] := by
  rw [RingFIFO.toList]
  simp [RingFIFO.init]

/-- A fresh buffer of capacity `N` holds exactly the last `N` pushed values. -/
theorem RingFIFO.toList_pushAll_init {N : Nat} (hN : 0 < N) (vs : List Int) :
    ((RingFIFO.init N).pushAll vs).toList = lastN N vs := by
  rw [RingFIFO.toList_pushAll (RingFIFO.WF.init hN), RingFIFO.toList_init, List.nil_append]
  rfl

theorem RingFIFO.get_eq_toList_getD {r : RingFIFO} {i : Nat} (hi : i < r.count) :
    r.get (i : Int) = r.toList.getD i 0 := by
  rw [RingFIFO.toList, List.getD_eq_getElem?_getD]
  simp [List.getElem?_map, List.getElem?_range hi]

theorem getD_drop (l : List Int) (k i : Nat) : (l.drop k).getD i 0 = l.getD (k + i) 0 := by
  simp [List.getD_eq_getElem?_getD, List.getElem?_drop]

/-- Claim C3: for a fresh `RingFIFO` of positive capacity `N`, after pushing
`N + k` values the length is `N`, `get 0` is the `(k+1)`-th pushed value
(oldest retained) and `get (N-1)` the last pushed value (newest); in
particular with capacity 3 and pushes 1,2,3,4: length 3 and contents
2,3,4. -/
theorem ringFIFO_overwrites_oldest (N k : Nat) (vs : List Int) (hN : 0 < N)
    (hlen : vs.length = N + k) :
    ((RingFIFO.init N).pushAll vs).length = N
    ∧ ((RingFIFO.init N).pushAll vs).get 0 = vs.getD k 0
    ∧ ((RingFIFO.init N).pushAll vs).get ((N - 1 : Nat) : Int) = vs.getD (N + k - 1) 0
    ∧ ((RingFIFO.init 3).pushAll [1, 2, 3, 4]).length = 3
    ∧ ((RingFIFO.init 3).pushAll [1, 2, 3, 4]).get 0 = 2
    ∧ ((RingFIFO.init 3).pushAll [1, 2, 3, 4]).get 1 = 3
    ∧ ((RingFIFO.init 3).pushAll [1, 2, 3, 4]).get 2 = 4 := by
  have htl : ((RingFIFO.init N).pushAll vs).toList = lastN N vs :=
    RingFIFO.toList_pushAll_init hN vs
  have hlN : (lastN N vs).length = N := by
    rw [lastN_length]
    omega
  have hcount : ((RingFIFO.init N).pushAll vs).count = N := by
    have h1 := ((RingFIFO.init N).pushAll vs).toList_length
    rw [htl, hlN] at h1
    exact h1.symm
  have hdrop : lastN N vs = vs.drop k := by
    rw [lastN, hlen]
    congr 1
    omega
  have hg0 : ((RingFIFO.init N).pushAll vs).get ((0 : Nat) : Int) = vs.getD k 0 := by
    rw [RingFIFO.get_eq_toList_getD (show (0 : Nat) < _ by rw [hcount]; omega)]
    rw [htl, hdrop, getD_drop, Nat.add_zero]
  have hgN : ((RingFIFO.init N).pushAll vs).get ((N - 1 : Nat) : Int) = vs.getD (N + k - 1) 0 := by
    rw [RingFIFO.get_eq_toList_getD (show N - 1 < _ by rw [hcount]; omega)]
    rw [htl, hdrop, getD_drop]
    congr 1
    omega
  refine ⟨hcount, by simpa using hg0, hgN, by decide, by decide, by decide, by decide⟩

/-- Claim C10: before a fresh buffer of capacity `N` first fills, pushing
`m ≤ N` values gives length `m` and `get i` returns exactly the `(i+1)`-th
pushed value for every `i < m` — no wraparound effects. -/
theorem ringFIFO_partial_fill (N : Nat) (vs : List Int) (hN : 0 < N)
    (hlen : vs.length ≤ N) :
    ((RingFIFO.init N).pushAll vs).length = vs.length
    ∧ ∀ i : Nat, i < vs.length → ((RingFIFO.init N).pushAll vs).get (i : Int) = vs.getD i 0 := by
  have htl : ((RingFIFO.init N).pushAll vs).toList = vs := by
    rw [RingFIFO.toList_pushAll_init hN vs]
    exact lastN_of_le N vs hlen
  have hcount : ((RingFIFO.init N).pushAll vs).count = vs.length := by
    have h1 := ((RingFIFO.init N).pushAll vs).toList_length
    rw [htl] at h1
    exact h1.symm
  refine ⟨hcount, fun i hi => ?_⟩
  rw [RingFIFO.get_eq_toList_getD (show i < _ by rw [hcount]; omega), htl]

/-- Claim C5: `get` returns the sentinel `0` for every index that is negative or
at least `length`, on every buffer state, never an error. -/
theorem ringFIFO_get_out_of_range (r : RingFIFO) (i : Int)
    (h : i < 0 ∨ (r.length : Int) ≤ i) : r.get i = 0 := by
  rw [RingFIFO.get, if_pos (show i < 0 ∨ (r.count : Int) ≤ i from h)]

/-- Witness for C5: reading index 7 of a capacity-3 buffer holding two
values yields the sentinel 0. -/
theorem ringFIFO_get_out_of_range_holds :
    ((7 : Int) < 0 ∨ ((((RingFIFO.init 3).pushAll [5, 7]).length : Nat) : Int) ≤ 7)
    ∧ ((RingFIFO.init 3).pushAll [5, 7]).get 7 = 0 :=
  ⟨Or.inr (by decide), ringFIFO_get_out_of_range _ 7 (Or.inr (by decide))⟩

/-- Counterexample to C2 as stated: constructing a `RingFIFO` of capacity 0
does not fail at all — the source performs no validation, so construction
succeeds with an empty store. -/
theorem ringFIFO_construct_zero_succeeds :
    RingFIFO.construct 0 = Except.ok (RingFIFO.init 0)
    ∧ (RingFIFO.init 0).buffer = [] ∧ (RingFIFO.init 0).head = 0
    ∧ (RingFIFO.init 0).count = 0 := ⟨rfl, rfl, rfl, rfl⟩

/-- Claim C2, amended: the constructor validates nothing.  A negative capacity is
rejected by the JS array allocation itself (`RangeError`, not a
`ConfigurationError`); capacity 0 succeeds with an empty store; every
positive capacity succeeds with a zero-filled store of that length,
`head = 0`, `count = 0`. -/
theorem ringFIFO_construct_no_validation (c : Int) :
    (c < 0 → RingFIFO.construct c = Except.error JSError.rangeError)
    ∧ (0 ≤ c → RingFIFO.construct c = Except.ok (RingFIFO.init c.toNat))
    ∧ (0 < c → ∃ r, RingFIFO.construct c = Except.ok r
        ∧ r.size = c.toNat ∧ r.buffer = List.replicate c.toNat 0
        ∧ r.buffer.length = c.toNat ∧ r.head = 0 ∧ r.count = 0) := by
  refine ⟨fun hneg => ?_, fun hpos => ?_, fun hpos => ?_⟩
  · rw [RingFIFO.construct, if_pos hneg]
  · rw [RingFIFO.construct, if_neg (by omega)]
  · refine ⟨RingFIFO.init c.toNat, ?_, rfl, rfl, by simp [RingFIFO.init], rfl, rfl⟩
    rw [RingFIFO.construct, if_neg (by omega)]

/-- Witness for the amended C2 at capacity 5: construction succeeds with a
zero-filled store of length 5. -/
theorem ringFIFO_construct_no_validation_holds :
    RingFIFO.construct 5 = Except.ok (RingFIFO.init 5)
    ∧ (RingFIFO.init 5).buffer = List.replicate 5 0 :=
  ⟨(ringFIFO_construct_no_validation 5).2.1 (by decide), rfl⟩

/-- JS `Math.round`: round to nearest, halves toward positive infinity. -/
def jsRound (q : ℚ) : Int := ⌊q + 1 / 2⌋

/-- JS `reduce((a, b) => a + b, 0)`. -/
def listSum (l : List Int) : Int := l.foldl (· + ·) 0

/-- The state of `class FPSWidget` (`src/main.js`).  The DOM canvas element,
its 2d context and the CSS class list are external collaborators and are not
part of the state; `width`, `height`, `kx`, `stack`, `frameCount`,
`lastTime`, `frameHistory` and `enabled` are the JS fields. -/
structure FPSWidget where
  enabled : Bool
  width : ℚ
  height : ℚ
  kx : ℚ
  stack : RingFIFO
  frameCount : Int
  lastTime : ℚ
  frameHistory : List Int
  deriving Repr, DecidableEq

/-- The `FPSWidget` constructor: `enabled = false`, `kx = width / graphSize`,
`stack = new RingFIFO(graphSize)`, `frameCount = 0`, `lastTime = 0`,
`frameHistory = []`.  (Canvas creation, font setup and DOM attachment are
external effects.) -/
def mkFPSWidget (width height : ℚ) (graphSize : Nat) : FPSWidget :=
  { enabled := false
    width := width
    height := height
    kx := width / (graphSize : ℚ)
    stack := RingFIFO.init graphSize
    frameCount := 0
    lastTime := 0
    frameHistory := [] }

/-- `this.frameHistory.push(fps)` followed by
`if (this.frameHistory.length > 5) this.frameHistory.shift()`. -/
def updatedHistory (hist : List Int) (fps : Int) : List Int :=
  let h1 := hist ++ [fps]
  if 5 < h1.length then h1.drop 1 else h1

/-- `FPSWidget.calcFPS(currentTime)`: increment `frameCount`; once
`deltaTime >= 100`, round the instantaneous rate, update the 5-entry
rolling history, push the rounded average onto the ring buffer and reset
the window. -/
def calcFPS (w : FPSWidget) (currentTime : ℚ) : FPSWidget :=
  let frameCount := w.frameCount + 1
  let deltaTime := currentTime - w.lastTime
  if 100 ≤ deltaTime then
    let fps := jsRound ((frameCount : ℚ) * 1000 / deltaTime)
    let hist := updatedHistory w.frameHistory fps
    let avgFPS := jsRound ((listSum hist : ℚ) / (hist.length : ℚ))
    { w with
      stack := w.stack.push avgFPS
      lastTime := currentTime
      frameCount := 0
      frameHistory := hist }
  else
    { w with frameCount := frameCount }

/-- The guard at the top of `FPSWidget.loop`: a new frame callback is
requested exactly when `enabled` is true. -/
def loopSchedules (w : FPSWidget) : Bool := w.enabled

/-- `FPSWidget.toggle()`.  The returned boolean records whether the call
scheduled a tick (the enable branch calls `loop()`, whose guard then sees
`enabled = true`); CSS class changes are external effects. -/
def toggle (w : FPSWidget) (now : ℚ) : FPSWidget × Bool :=
  if w.enabled then
    ({ w with enabled := false }, false)
  else
    let w' := { w with
      enabled := true
      lastTime := now
      frameCount := 0
      frameHistory := [] }
    (w', loopSchedules w')

/-- The canvas operations `FPSWidget.draw` performs, as a recording
surface. -/
inductive DrawCmd where
  | setFillStyle (color : String)
  | setStrokeStyle (color : String)
  | fillRect (x y w h : ℚ)
  | beginPath
  | moveTo (x y : ℚ)
  | lineTo (x y : ℚ)
  | stroke
  | fillText (text : String) (x y : ℚ)
  deriving Repr, DecidableEq

/-- The unconditional opening of `FPSWidget.draw`: white clear of the whole
surface, then stroke/fill style and `beginPath`. -/
def drawPre (w : FPSWidget) : List DrawCmd :=
  [DrawCmd.setFillStyle "white",
   DrawCmd.fillRect 0 0 w.width w.height,
   DrawCmd.setStrokeStyle "black",
   DrawCmd.setFillStyle "black",
   DrawCmd.beginPath]

/-- `FPSWidget.draw`: after the cleared background, when the buffer is
non-empty plot every element at `x = i * kx`,
`y = height - (fps / 60) * height * 0.8` (move for the first point, line
for the rest), stroke the polyline and draw the latest value as a centered
label. -/
def draw (w : FPSWidget) : List DrawCmd :=
  let bufferLength := w.stack.length
  if 0 < bufferLength then
    let pts := (List.range bufferLength).map (fun i : Nat =>
      let x : ℚ := (i : ℚ) * w.kx
      let fps := w.stack.get (i : Int)
      let y : ℚ := w.height - ((fps : ℚ) / 60) * w.height * (0.8 : ℚ)
      if i = 0 then DrawCmd.moveTo x y else DrawCmd.lineTo x y)
    let currentFPS := w.stack.get ((bufferLength - 1 : Nat) : Int)
    drawPre w ++ pts ++
      [DrawCmd.stroke,
       DrawCmd.fillText (toString currentFPS ++ " fps") (w.width / 2) (w.height - 10)]
  else
    drawPre w

/-- The frame callback scheduled by `FPSWidget.loop`:
`calcFPS(currentTime); draw(); loop()`.  Returns the new state, the
commands issued to the surface, and whether `loop()` scheduled another
tick. -/
def tick (w : FPSWidget) (t : ℚ) : FPSWidget × List DrawCmd × Bool :=
  let w1 := calcFPS w t
  (w1, draw w1, loopSchedules w1)

/-- Folding a sequence of frame timestamps through `calcFPS`. -/
def runTicks (w : FPSWidget) (ts : List ℚ) : FPSWidget :=
  ts.foldl calcFPS w

/-- Widget states reachable from construction through ticks and toggles. -/
inductive Reach : FPSWidget → Prop where
  | init : ∀ (width height : ℚ) (graphSize : Nat), Reach (mkFPSWidget width height graphSize)
  | tick : ∀ w t, Reach w → Reach (calcFPS w t)
  | tog : ∀ w now, Reach w → Reach (toggle w now).1

theorem calcFPS_lt {w : FPSWidget} {t : ℚ} (h : t - w.lastTime < 100) :
    calcFPS w t = { w with frameCount := w.frameCount + 1 } := by
  simp only [calcFPS]
  rw [if_neg (not_le.mpr h)]

theorem calcFPS_ge {w : FPSWidget} {t : ℚ} (h : 100 ≤ t - w.lastTime) :
    calcFPS w t =
      { w with
        stack := w.stack.push (jsRound ((listSum (updatedHistory w.frameHistory
              (jsRound (((w.frameCount + 1 : Int) : ℚ) * 1000 / (t - w.lastTime)))) : ℚ)
            / ((updatedHistory w.frameHistory
              (jsRound (((w.frameCount + 1 : Int) : ℚ) * 1000 / (t - w.lastTime)))).length : ℚ)))
        lastTime := t
        frameCount := 0
        frameHistory := updatedHistory w.frameHistory
            (jsRound (((w.frameCount + 1 : Int) : ℚ) * 1000 / (t - w.lastTime))) } := by
  simp only [calcFPS]
  rw [if_pos h]

theorem enabled_calcFPS (w : FPSWidget) (t : ℚ) : (calcFPS w t).enabled = w.enabled := by
  by_cases h : 100 ≤ t - w.lastTime
  · rw [calcFPS_ge h]
  · rw [calcFPS_lt (lt_of_not_ge h)]

theorem updatedHistory_length_pos (hist : List Int) (fps : Int) :
    0 < (updatedHistory hist fps).length := by
  simp only [updatedHistory]
  by_cases h : 5 < (hist ++ [fps]).length
  · rw [if_pos h]
    rw [List.length_drop, List.length_append, List.length_singleton]
    rw [List.length_append, List.length_singleton] at h
    omega
  · rw [if_neg h]
    rw [List.length_append, List.length_singleton]
    omega

theorem updatedHistory_length_le (hist : List Int) (fps : Int) (h : hist.length ≤ 5) :
    (updatedHistory hist fps).length ≤ 5 := by
  simp only [updatedHistory]
  by_cases h5 : 5 < (hist ++ [fps]).length
  · rw [if_pos h5]
    rw [List.length_drop, List.length_append, List.length_singleton]
    omega
  · rw [if_neg h5]
    rw [List.length_append, List.length_singleton] at h5 ⊢
    omega

theorem updatedHistory_mem {hist : List Int} {fps x : Int}
    (hx : x ∈ updatedHistory hist fps) : x ∈ hist ∨ x = fps := by
  simp only [updatedHistory] at hx
  by_cases h5 : 5 < (hist ++ [fps]).length
  · rw [if_pos h5] at hx
    have := List.mem_of_mem_drop hx
    rcases List.mem_append.mp this with h | h
    · exact Or.inl h
    · exact Or.inr (List.mem_singleton.mp h)
  · rw [if_neg h5] at hx
    rcases List.mem_append.mp hx with h | h
    · exact Or.inl h
    · exact Or.inr (List.mem_singleton.mp h)

theorem jsRound_nonneg {q : ℚ} (h : 0 ≤ q) : 0 ≤ jsRound q := by
  rw [jsRound]
  apply Int.le_floor.mpr
  push_cast
  linarith

/-- Every reachable widget state keeps at most five history entries, all
non-negative, and a non-negative frame counter. -/
theorem reach_sampler_invariant {w : FPSWidget} (hw : Reach w) :
    w.frameHistory.length ≤ 5 ∧ (∀ x ∈ w.frameHistory, 0 ≤ x) ∧ 0 ≤ w.frameCount := by
  induction hw with
  | init width height graphSize => simp [mkFPSWidget]
  | tick w t hw ih =>
    obtain ⟨h1, h2, h3⟩ := ih
    by_cases h : 100 ≤ t - w.lastTime
    · rw [calcFPS_ge h]
      refine ⟨updatedHistory_length_le _ _ h1, fun x hx => ?_, le_refl 0⟩
      rcases updatedHistory_mem hx with hmem | rfl
      · exact h2 x hmem
      · apply jsRound_nonneg
        apply div_nonneg
        · have : (0 : ℚ) ≤ ((w.frameCount + 1 : Int) : ℚ) := by
            push_cast
            have : (0 : ℚ) ≤ (w.frameCount : ℚ) := by exact_mod_cast h3
            linarith
          positivity
        · linarith
    · rw [calcFPS_lt (lt_of_not_ge h)]
      refine ⟨h1, h2, ?_⟩
      show (0 : Int) ≤ w.frameCount + 1
      omega
  | tog w now hw ih =>
    obtain ⟨h1, h2, h3⟩ := ih
    rw [toggle]
    by_cases he : w.enabled
    · rw [if_pos he]
      exact ⟨h1, h2, h3⟩
    · rw [if_neg he]
      exact ⟨by simp, by simp, le_refl 0⟩

/-- The spec's `RateSampler` state: `tickCount`, `windowStartTime`,
`recentRates` — the names §3 of the design document gives to the widget
fields `frameCount`, `lastTime`, `frameHistory`. -/
structure RateSampler where
  tickCount : Int
  windowStartTime : ℚ
  recentRates : List Int
  deriving Repr, DecidableEq

/-- `accumulate(timestamp)` written from the spec's words (§4.2), for
comparison against the code-side `calcFPS`: increment `tickCount`; if
`elapsed < 100` report no sample; otherwise append the rounded
instantaneous rate, drop the oldest entry beyond five, return the rounded
mean as the produced sample and reset the window. -/
def RateSampler.accumulate (s : RateSampler) (t : ℚ) : RateSampler × Option Int :=
  let tickCount := s.tickCount + 1
  let elapsed := t - s.windowStartTime
  if elapsed < 100 then
    ({ s with tickCount := tickCount }, none)
  else
    let instantaneousRate := jsRound ((tickCount : ℚ) * 1000 / elapsed)
    let appended := s.recentRates ++ [instantaneousRate]
    let recentRates := if 5 < appended.length then appended.drop 1 else appended
    let smoothed := jsRound ((listSum recentRates : ℚ) / (recentRates.length : ℚ))
    ({ tickCount := 0, windowStartTime := t, recentRates := recentRates }, some smoothed)

/-- The sampler fields of a widget, under the spec's names. -/
def samplerOf (w : FPSWidget) : RateSampler :=
  { tickCount := w.frameCount, windowStartTime := w.lastTime, recentRates := w.frameHistory }

/-- Claim C4: `calcFPS` implements the spec's `accumulate`: the sampler fields
evolve exactly as `accumulate` prescribes, the buffer receives exactly the
produced samples, a sub-100ms tick only increments the counter, and with
ticks exactly 100 ms apart one per window each window yields rate 10 and
after 5 windows the smoothed output is 10. -/
theorem calcFPS_implements_accumulate (w : FPSWidget) (t : ℚ) :
    samplerOf (calcFPS w t) = (RateSampler.accumulate (samplerOf w) t).1
    ∧ ((calcFPS w t).stack =
        match (RateSampler.accumulate (samplerOf w) t).2 with
        | none => w.stack
        | some smoothed => w.stack.push smoothed)
    ∧ (t - w.lastTime < 100 → calcFPS w t = { w with frameCount := w.frameCount + 1 })
    ∧ (runTicks (mkFPSWidget 120 80 30) [100, 200, 300, 400, 500]).frameHistory
        = [10, 10, 10, 10, 10]
    ∧ (runTicks (mkFPSWidget 120 80 30) [100, 200, 300, 400, 500]).stack.toList
        = [10, 10, 10, 10, 10] := by
  refine ⟨?_, ?_, fun h => calcFPS_lt h, by decide, by decide⟩
  · by_cases h : 100 ≤ t - w.lastTime
    · rw [calcFPS_ge h]
      simp only [RateSampler.accumulate, samplerOf, updatedHistory]
      rw [if_neg (not_lt.mpr h)]
    · have hlt := lt_of_not_ge h
      rw [calcFPS_lt hlt]
      simp only [RateSampler.accumulate, samplerOf]
      rw [if_pos hlt]
  · by_cases h : 100 ≤ t - w.lastTime
    · rw [calcFPS_ge h]
      simp only [RateSampler.accumulate, samplerOf, updatedHistory]
      rw [if_neg (not_lt.mpr h)]
    · have hlt := lt_of_not_ge h
      rw [calcFPS_lt hlt]
      simp only [RateSampler.accumulate, samplerOf]
      rw [if_pos hlt]

/-- Witness for C4 at a concrete sub-window tick: 50 ms after construction
only the counter advances. -/
theorem calcFPS_implements_accumulate_holds :
    calcFPS (mkFPSWidget 120 80 30) 50
      = { mkFPSWidget 120 80 30 with frameCount := (mkFPSWidget 120 80 30).frameCount + 1 } :=
  (calcFPS_implements_accumulate (mkFPSWidget 120 80 30) 50).2.2.1 (by decide)

/-- Claim C8: whenever a sample is produced, the history the mean is computed
over has already received the freshly appended instantaneous rate, so its
length is positive and the mean's divisor can never be zero; the pushed
sample is exactly that mean, rounded. -/
theorem calcFPS_mean_divisor_positive (w : FPSWidget) (t : ℚ) (h : 100 ≤ t - w.lastTime) :
    0 < ((calcFPS w t).frameHistory).length
    ∧ (calcFPS w t).frameHistory
        = updatedHistory w.frameHistory
            (jsRound (((w.frameCount + 1 : Int) : ℚ) * 1000 / (t - w.lastTime)))
    ∧ (calcFPS w t).stack
        = w.stack.push (jsRound ((listSum ((calcFPS w t).frameHistory) : ℚ)
            / (((calcFPS w t).frameHistory).length : ℚ))) := by
  rw [calcFPS_ge h]
  exact ⟨updatedHistory_length_pos _ _, rfl, rfl⟩

/-- Witness for C8 at the first produced sample after construction. -/
theorem calcFPS_mean_divisor_positive_holds :
    0 < ((calcFPS (mkFPSWidget 120 80 30) 100).frameHistory).length :=
  (calcFPS_mean_divisor_positive (mkFPSWidget 120 80 30) 100 (by decide)).1

/-- Claim C6: on every reachable state the rolling history holds at most five
entries, all non-negative, and whenever a sample is produced the history
is the FIFO-evicted append of the new instantaneous rate and the pushed
sample is the rounded arithmetic mean of that current history. -/
theorem recentRates_bounded_and_smoothed (w : FPSWidget) (hw : Reach w) :
    w.frameHistory.length ≤ 5
    ∧ (∀ x ∈ w.frameHistory, 0 ≤ x)
    ∧ (∀ t : ℚ, 100 ≤ t - w.lastTime →
        (calcFPS w t).frameHistory
          = updatedHistory w.frameHistory
              (jsRound (((w.frameCount + 1 : Int) : ℚ) * 1000 / (t - w.lastTime)))
        ∧ (calcFPS w t).stack
          = w.stack.push (jsRound ((listSum ((calcFPS w t).frameHistory) : ℚ)
              / (((calcFPS w t).frameHistory).length : ℚ)))) := by
  obtain ⟨h1, h2, h3⟩ := reach_sampler_invariant hw
  refine ⟨h1, h2, fun t ht => ?_⟩
  rw [calcFPS_ge ht]
  exact ⟨rfl, rfl⟩

/-- Witness for C6 on the freshly constructed (reachable) widget. -/
theorem recentRates_bounded_and_smoothed_holds :
    (mkFPSWidget 120 80 30).frameHistory.length ≤ 5 :=
  (recentRates_bounded_and_smoothed (mkFPSWidget 120 80 30) (Reach.init 120 80 30)).1

/-- Counterexample to C7 as stated: after `toggle()` twice in succession the
sampler fields are NOT as freshly constructed — `lastTime`
(`windowStartTime`) keeps the time of the first toggle (here 5) while a
fresh construction sets it to 0. -/
theorem toggle_twice_not_fresh :
    ((toggle ((toggle (mkFPSWidget 120 80 30) 5).1) 5).1).lastTime
      ≠ (mkFPSWidget 120 80 30).lastTime := by decide

/-- Claim C7, amended: Disabled → Enabled sets `enabled`, resets `frameCount` and
`frameHistory`, sets `lastTime` to now, schedules the first tick and leaves
the buffer untouched; a second toggle with no ticks in between leaves
`enabled = false` with `frameCount = 0`, `frameHistory = []`, the buffer
still untouched, and `lastTime` equal to the first toggle's time (not the
constructor's 0). -/
theorem toggle_enable_disable (w : FPSWidget) (t1 t2 : ℚ) (hw : w.enabled = false) :
    (toggle w t1).1 = { w with
        enabled := true, lastTime := t1, frameCount := 0, frameHistory := [] }
    ∧ (toggle w t1).2 = true
    ∧ (toggle w t1).1.stack = w.stack
    ∧ ((toggle (toggle w t1).1 t2).1).enabled = false
    ∧ ((toggle (toggle w t1).1 t2).1).frameCount = 0
    ∧ ((toggle (toggle w t1).1 t2).1).frameHistory = []
    ∧ ((toggle (toggle w t1).1 t2).1).stack = w.stack
    ∧ ((toggle (toggle w t1).1 t2).1).lastTime = t1 := by
  have h1 : (toggle w t1).1 = { w with
      enabled := true, lastTime := t1, frameCount := 0, frameHistory := [] } := by
    rw [toggle, if_neg (by simp [hw])]
  have h2 : (toggle w t1).2 = true := by
    rw [toggle, if_neg (by simp [hw])]
    rfl
  have h3 : (toggle (toggle w t1).1 t2).1 = { w with
      enabled := false, lastTime := t1, frameCount := 0, frameHistory := [] } := by
    rw [h1, toggle, if_pos rfl]
  exact ⟨h1, h2, by rw [h1], by rw [h3], by rw [h3], by rw [h3], by rw [h3], by rw [h3]⟩

/-- Witness for the amended C7: toggling the fresh widget at time 5 and
again at time 9 ends disabled with the buffer untouched and
`lastTime = 5`. -/
theorem toggle_enable_disable_holds :
    (toggle (mkFPSWidget 120 80 30) 5).2 = true
    ∧ ((toggle (toggle (mkFPSWidget 120 80 30) 5).1 9).1).enabled = false
    ∧ ((toggle (toggle (mkFPSWidget 120 80 30) 5).1 9).1).lastTime = 5 :=
  ⟨(toggle_enable_disable (mkFPSWidget 120 80 30) 5 9 rfl).2.1,
   (toggle_enable_disable (mkFPSWidget 120 80 30) 5 9 rfl).2.2.2.1,
   (toggle_enable_disable (mkFPSWidget 120 80 30) 5 9 rfl).2.2.2.2.2.2.2⟩

/-- Counterexample to C1 as stated: enable at 0, disable at 0, then let the
already-scheduled tick fire at 100: the state is disabled, yet the tick
mutates the ring buffer and the sampler history (the scheduled callback
runs `calcFPS` and `draw` unguarded; only `loop`'s rescheduling checks
`enabled`). -/
theorem stray_tick_performs_work :
    ((toggle ((toggle (mkFPSWidget 120 80 30) 0).1) 0).1).enabled = false
    ∧ (tick ((toggle ((toggle (mkFPSWidget 120 80 30) 0).1) 0).1) 100).1.stack
        ≠ ((toggle ((toggle (mkFPSWidget 120 80 30) 0).1) 0).1).stack
    ∧ (tick ((toggle ((toggle (mkFPSWidget 120 80 30) 0).1) 0).1) 100).1.frameHistory
        ≠ ((toggle ((toggle (mkFPSWidget 120 80 30) 0).1) 0).1).frameHistory :=
  ⟨by decide, by decide, by decide⟩

/-- Claim C1, amended: a tick that fires with `enabled = false` still executes
`calcFPS` (so sampler fields and the buffer may change) and redraws once,
but it does not schedule another tick and leaves the widget disabled. -/
theorem stray_tick_no_reschedule (w : FPSWidget) (t : ℚ) (hw : w.enabled = false) :
    (tick w t).2.2 = false
    ∧ (tick w t).1.enabled = false
    ∧ (tick w t).1 = calcFPS w t
    ∧ (tick w t).2.1 = draw (calcFPS w t) := by
  refine ⟨?_, ?_, rfl, rfl⟩
  · show loopSchedules (calcFPS w t) = false
    rw [loopSchedules, enabled_calcFPS, hw]
  · show (calcFPS w t).enabled = false
    rw [enabled_calcFPS, hw]

/-- Witness for the amended C1: the stray tick at 100 on the fresh
(disabled) widget does not reschedule. -/
theorem stray_tick_no_reschedule_holds :
    (tick (mkFPSWidget 120 80 30) 100).2.2 = false :=
  (stray_tick_no_reschedule (mkFPSWidget 120 80 30) 100 rfl).1

/-- The graph portion of the render step written from the spec's words
(§4.3 step 4): each index is plotted at
`x = index * (surfaceWidth / graphCapacity)`,
`y = surfaceHeight - (value / 60) * surfaceHeight * 0.8`, the first point
moves and subsequent points draw line segments, then the polyline is
stroked and the latest value is drawn as a centered label; nothing beyond
the cleared background when the buffer is empty. -/
def specGraphCmds (w : FPSWidget) (graphCapacity : Nat) : List DrawCmd :=
  if 0 < w.stack.length then
    ((List.range w.stack.length).map (fun i : Nat =>
      let x : ℚ := (i : ℚ) * (w.width / (graphCapacity : ℚ))
      let fps := w.stack.get (i : Int)
      let y : ℚ := w.height - ((fps : ℚ) / 60) * w.height * (0.8 : ℚ)
      if i = 0 then DrawCmd.moveTo x y else DrawCmd.lineTo x y))
    ++ [DrawCmd.stroke,
        DrawCmd.fillText (toString (w.stack.get ((w.stack.length - 1 : Nat) : Int)) ++ " fps")
          (w.width / 2) (w.height - 10)]
  else []

/-- Claim C9: when `kx` carries its constructed value `width / graphCapacity`,
`draw` emits exactly the cleared background followed by the spec's graph
commands; an empty buffer yields the background alone; and the unclamped
`y` formula sends values above 60 above the visible band and negative
values below it. -/
theorem draw_matches_spec (w : FPSWidget) (gcap : Nat)
    (hkx : w.kx = w.width / (gcap : ℚ)) :
    draw w = drawPre w ++ specGraphCmds w gcap
    ∧ (w.stack.length = 0 → draw w = drawPre w)
    ∧ (∀ v : ℚ, 0 < w.height → 60 < v →
        w.height - (v / 60) * w.height * (0.8 : ℚ)
          < w.height - ((60 : ℚ) / 60) * w.height * (0.8 : ℚ))
    ∧ (∀ v : ℚ, 0 < w.height → v < 0 →
        w.height < w.height - (v / 60) * w.height * (0.8 : ℚ)) := by
  refine ⟨?_, ?_, ?_, ?_⟩
  · rw [draw, specGraphCmds]
    by_cases h : 0 < w.stack.length
    · rw [if_pos h, if_pos h, hkx, List.append_assoc]
    · rw [if_neg h, if_neg h, List.append_nil]
  · intro h0
    rw [draw, if_neg (by omega)]
  · intro v hh hv
    have key : (v / 60) * w.height * (0.8 : ℚ) - ((60 : ℚ) / 60) * w.height * (0.8 : ℚ)
        = (v - 60) * (w.height * (0.8 : ℚ) / 60) := by ring
    have pos : 0 < (v - 60) * (w.height * (0.8 : ℚ) / 60) := by
      apply mul_pos (by linarith)
      positivity
    linarith
  · intro v hh hv
    have key : (v / 60) * w.height * (0.8 : ℚ) = v * (w.height * (0.8 : ℚ) / 60) := by ring
    have neg : v * (w.height * (0.8 : ℚ) / 60) < 0 := by
      apply mul_neg_of_neg_of_pos hv
      positivity
    linarith

/-- Witness for C9 on a widget holding one sample (one tick after
construction): the emitted command list is the background plus the spec
graph commands. -/
theorem draw_matches_spec_holds :
    draw (runTicks (mkFPSWidget 120 80 30) [100])
      = drawPre (runTicks (mkFPSWidget 120 80 30) [100])
        ++ specGraphCmds (runTicks (mkFPSWidget 120 80 30) [100]) 30 :=
  (draw_matches_spec (runTicks (mkFPSWidget 120 80 30) [100]) 30 (by decide)).1

/-- Witness for C3 at capacity 3, overflow 1: pushing 1,2,3,4 retains
2,3,4. -/
theorem ringFIFO_overwrites_oldest_holds :
    ((RingFIFO.init 3).pushAll [1, 2, 3, 4]).length = 3
    ∧ ((RingFIFO.init 3).pushAll [1, 2, 3, 4]).get 0 = ([1, 2, 3, 4] : List Int).getD 1 0 :=
  ⟨(ringFIFO_overwrites_oldest 3 1 [1, 2, 3, 4] (by decide) (by decide)).1,
   (ringFIFO_overwrites_oldest 3 1 [1, 2, 3, 4] (by decide) (by decide)).2.1⟩

/-- Witness for C10: two pushes into a capacity-3 buffer read back in push
order. -/
theorem ringFIFO_partial_fill_holds :
    ((RingFIFO.init 3).pushAll [5, 7]).length = 2
    ∧ ((RingFIFO.init 3).pushAll [5, 7]).get 0 = ([5, 7] : List Int).getD 0 0 :=
  ⟨(ringFIFO_partial_fill 3 [5, 7] (by decide) (by decide)).1,
   (ringFIFO_partial_fill 3 [5, 7] (by decide) (by decide)).2 0 (by decide)⟩
